import Mathlib

/-!
Verification of the array-camera Fourier-ptychography reconstruction notebook
(Fourier_Ptychography_for_Phase_Retrieval.ipynb).

Arrays are embedded as total functions on natural-number indices; an N by N
complex array is a function used on indices below N.  The notebook's numpy
slice assignments become piecewise-defined functions that mirror the branch
structure of the source line by line.
-/

open Finset

/-- The 2 by 2 replication of an N-periodic spectrum, `matlib.repmat(A, 2, 2)`:
on indices below 2N it equals the source array at the index reduced mod N. -/
def tiled (N : ℕ) (A : ℕ → ℕ → ℂ) (i j : ℕ) : ℂ := A (i % N) (j % N)

/-- The L by L window read at top-left pixel (x, y) from the tiled spectrum:
`objectFT[x : x + L, y : y + L]` of `matlib.repmat(objectFT, 2, 2)`. -/
def extractWindow (N x y : ℕ) (A : ℕ → ℕ → ℂ) (a b : ℕ) : ℂ :=
  tiled N A (x + a) (y + b)

/-- Wrap-aware write-back of a corrected L by L block W into the spectrum
estimate at window top-left (x, y), following the four branches of
`run_simulation`: direct write when the footprint fits, a two-piece split when
it crosses the N-boundary in x only or in y only, and a four-piece split when
it crosses in both axes. -/
def writeBack (N L x y : ℕ) (A W : ℕ → ℕ → ℂ) : ℕ → ℕ → ℂ := fun i j =>
  if ¬ x > N - L ∧ ¬ y > N - L then
    if x ≤ i ∧ i < x + L ∧ y ≤ j ∧ j < y + L then W (i - x) (j - y) else A i j
  else if x > N - L ∧ ¬ y > N - L then
    if x ≤ i ∧ i < N ∧ y ≤ j ∧ j < y + L then W (i - x) (j - y)
    else if i < L + x - N ∧ y ≤ j ∧ j < y + L then W (N - x + i) (j - y)
    else A i j
  else if ¬ x > N - L ∧ y > N - L then
    if x ≤ i ∧ i < x + L ∧ y ≤ j ∧ j < N then W (i - x) (j - y)
    else if x ≤ i ∧ i < x + L ∧ j < L + y - N then W (i - x) (N - y + j)
    else A i j
  else
    if x ≤ i ∧ i < N ∧ y ≤ j ∧ j < N then W (i - x) (j - y)
    else if i < L + x - N ∧ j < L + y - N then W (N - x + i) (N - y + j)
    else if x ≤ i ∧ i < N ∧ j < L + y - N then W (i - x) (N - y + j)
    else if i < L + x - N ∧ y ≤ j ∧ j < N then W (N - x + i) (j - y)
    else A i j

lemma tiled_eq_of (N : ℕ) (A : ℕ → ℕ → ℂ) {s t i j : ℕ}
    (hi : i < N) (hj : j < N)
    (hs : s = i ∨ s = N + i) (ht : t = j ∨ t = N + j) :
    A (s % N) (t % N) = A i j := by
  have hsm : s % N = i := by
    rcases hs with h | h <;> rw [h]
    · exact Nat.mod_eq_of_lt hi
    · rw [Nat.add_mod_left, Nat.mod_eq_of_lt hi]
  have htm : t % N = j := by
    rcases ht with h | h <;> rw [h]
    · exact Nat.mod_eq_of_lt hj
    · rw [Nat.add_mod_left, Nat.mod_eq_of_lt hj]
  rw [hsm, htm]

/-- C1: window extraction from the 2 by 2 tiled replication and wrap-aware
write-back are exact inverses: writing the extracted block back unmodified at
the same coordinate reproduces the original spectrum estimate at every pixel,
for every geometry coordinate (x, y) with L ≤ N, including the branches where
the window crosses the N-boundary in one or both axes. -/
theorem extract_writeBack_inverse (N L x y i j : ℕ) (A : ℕ → ℕ → ℂ)
    (hL : L ≤ N) (hx : x < N) (hy : y < N) (hi : i < N) (hj : j < N) :
    writeBack N L x y A (extractWindow N x y A) i j = A i j := by
  unfold writeBack extractWindow tiled
  split_ifs <;>
    first
      | rfl
      | (apply tiled_eq_of N A hi hj <;>
          first
            | (left; omega)
            | (right; omega))

/-- Closed instance of the C1 theorem at a boundary-crossing window (N = 4,
L = 3, window at (2, 2), which exercises the four-way-split branch). -/
theorem extract_writeBack_inverse_witness :
    3 ≤ 4 ∧ 2 < 4 ∧ 1 < 4 ∧
      writeBack 4 3 2 2 (fun i j => (i : ℂ) + 7 * j)
        (extractWindow 4 2 2 (fun i j => (i : ℂ) + 7 * j)) 1 1
        = (fun (i j : ℕ) => (i : ℂ) + 7 * j) 1 1 :=
  ⟨by decide, by decide, by decide,
    extract_writeBack_inverse 4 3 2 2 1 1 (fun i j => (i : ℂ) + 7 * j)
      (by decide) (by decide) (by decide) (by decide) (by decide)⟩

/-- The complex vector dot product `np.vdot(a, b)`: conjugate-linear in the
first argument. -/
noncomputable def vdot (n : ℕ) (a b : Fin n → ℂ) : ℂ :=
  ∑ i, (starRingEnd ℂ) (a i) * b i

/-- The reconstruction error metric `minAngMSE(xt, xest)`:
(|vdot(xt,xt)| + |vdot(xest,xest)| - 2 |vdot(xt,xest)|) / xt.shape[0]. -/
noncomputable def minAngMSE (n : ℕ) (xt xest : Fin n → ℂ) : ℝ :=
  (Complex.abs (vdot n xt xt) + Complex.abs (vdot n xest xest)
    - 2 * Complex.abs (vdot n xt xest)) / n

lemma vdot_mul_right (n : ℕ) (a b : Fin n → ℂ) (c : ℂ) :
    vdot n a (fun i => c * b i) = c * vdot n a b := by
  unfold vdot
  rw [Finset.mul_sum]
  exact Finset.sum_congr rfl fun i _ => by ring

lemma vdot_mul_both (n : ℕ) (b : Fin n → ℂ) (c : ℂ) :
    vdot n (fun i => c * b i) (fun i => c * b i)
      = ((starRingEnd ℂ) c * c) * vdot n b b := by
  unfold vdot
  rw [Finset.mul_sum]
  refine Finset.sum_congr rfl fun i _ => ?_
  simp only [map_mul]
  ring

lemma abs_exp_mul_I (ψ : ℝ) : Complex.abs (Complex.exp (ψ * Complex.I)) = 1 :=
  Complex.abs_exp_ofReal_mul_I ψ

/-- C2: the error metric is invariant under a global phase rotation of the
estimate, and it vanishes on an exact reconstruction and on any global phase
rotation of the true signal. -/
theorem minAngMSE_phase_invariant (n : ℕ) (xt xest : Fin n → ℂ) (ψ : ℝ) :
    minAngMSE n xt (fun i => Complex.exp (ψ * Complex.I) * xest i)
        = minAngMSE n xt xest ∧
      minAngMSE n xt xt = 0 ∧
      minAngMSE n xt (fun i => Complex.exp (ψ * Complex.I) * xt i) = 0 := by
  have habs : ∀ y : Fin n → ℂ,
      Complex.abs (vdot n xt (fun i => Complex.exp (ψ * Complex.I) * y i))
        = Complex.abs (vdot n xt y) := by
    intro y
    rw [vdot_mul_right, map_mul, abs_exp_mul_I, one_mul]
  have hself : ∀ y : Fin n → ℂ,
      Complex.abs (vdot n (fun i => Complex.exp (ψ * Complex.I) * y i)
          (fun i => Complex.exp (ψ * Complex.I) * y i))
        = Complex.abs (vdot n y y) := by
    intro y
    rw [vdot_mul_both, map_mul, map_mul]
    rw [Complex.abs_conj, abs_exp_mul_I, one_mul, one_mul]
  have hzero : minAngMSE n xt xt = 0 := by
    unfold minAngMSE
    rw [show Complex.abs (vdot n xt xt) + Complex.abs (vdot n xt xt)
          - 2 * Complex.abs (vdot n xt xt) = 0 by ring, zero_div]
  have hinv : ∀ y : Fin n → ℂ,
      minAngMSE n xt (fun i => Complex.exp (ψ * Complex.I) * y i)
        = minAngMSE n xt y := by
    intro y
    unfold minAngMSE
    rw [habs, hself]
  exact ⟨hinv xest, hzero, by rw [hinv xt, hzero]⟩

lemma vdot_eq_inner (n : ℕ) (a b : Fin n → ℂ) :
    vdot n a b = inner (𝕜 := ℂ)
      (show EuclideanSpace ℂ (Fin n) from a)
      (show EuclideanSpace ℂ (Fin n) from b) := by
  rw [PiLp.inner_apply]
  unfold vdot
  exact Finset.sum_congr rfl fun i _ => by rw [RCLike.inner_apply]

/-- C10: despite the subtraction in its definition, the error metric is
non-negative for every pair of equal-length complex vectors, by the
Cauchy-Schwarz inequality. -/
theorem minAngMSE_nonneg (n : ℕ) (xt xest : Fin n → ℂ) :
    0 ≤ minAngMSE n xt xest := by
  unfold minAngMSE
  set x : EuclideanSpace ℂ (Fin n) := xt with hxdef
  set y : EuclideanSpace ℂ (Fin n) := xest with hydef
  have hxx : Complex.abs (vdot n xt xt) = ‖x‖ ^ 2 := by
    rw [vdot_eq_inner, ← Complex.norm_eq_abs, ← inner_self_re_eq_norm,
      inner_self_eq_norm_sq]
  have hyy : Complex.abs (vdot n xest xest) = ‖y‖ ^ 2 := by
    rw [vdot_eq_inner, ← Complex.norm_eq_abs, ← inner_self_re_eq_norm,
      inner_self_eq_norm_sq]
  have hxy : Complex.abs (vdot n xt xest) ≤ ‖x‖ * ‖y‖ := by
    rw [vdot_eq_inner]
    rw [show (show EuclideanSpace ℂ (Fin n) from xt) = x from rfl]
    rw [show (show EuclideanSpace ℂ (Fin n) from xest) = y from rfl]
    rw [← Complex.norm_eq_abs]
    exact norm_inner_le_norm (𝕜 := ℂ) x y
  rw [hxx, hyy]
  apply div_nonneg _ (Nat.cast_nonneg n)
  nlinarith [sq_nonneg (‖x‖ - ‖y‖)]

/-- Per-pixel window cover count on the virtual 2N by 2N grid: one increment
of `counts[x : x + L, y : y + L]` for each window top-left
(x, y) = (qx * pitch, qy * pitch) with qx, qy below N / pitch. -/
def countsGrid (N L pitch i j : ℕ) : ℕ :=
  ∑ qx ∈ Finset.range (N / pitch), ∑ qy ∈ Finset.range (N / pitch),
    if (qx * pitch ≤ i ∧ i < qx * pitch + L) ∧ (qy * pitch ≤ j ∧ j < qy * pitch + L)
    then 1 else 0

/-- The energy-normalization map: the 2N by 2N accumulator folded into N by N
by summing its four quadrants,
`counts[0:N,0:N] + counts[0:N,N:2N] + counts[N:2N,0:N] + counts[N:2N,N:2N]`. -/
def counts (N L pitch i j : ℕ) : ℕ :=
  countsGrid N L pitch i j + countsGrid N L pitch i (j + N)
    + countsGrid N L pitch (i + N) j + countsGrid N L pitch (i + N) (j + N)

/-- C4 counterexample: with N = 2, L = 1, pitch = 2 (pitch divides N and
L ≤ N, as the claim requires) the pixel (1, 1) is covered by no window, so the
energy-normalization map has an entry equal to 0, refuting the claim that all
entries are at least 1. -/
theorem counts_ge_one_counterexample :
    2 ∣ 2 ∧ 1 ≤ 2 ∧ 1 < 2 ∧ ¬ 1 ≤ counts 2 1 2 1 1 := by decide

lemma one_le_countsGrid (N L pitch i j : ℕ) (hdvd : pitch ∣ N) (hpL : pitch ≤ L)
    (hi : i < N) (hj : j < N) (hp : 0 < pitch) :
    1 ≤ countsGrid N L pitch i j := by
  unfold countsGrid
  have hqx : i / pitch ∈ Finset.range (N / pitch) :=
    Finset.mem_range.mpr (Nat.div_lt_div_of_lt_of_dvd hdvd hi)
  have hqy : j / pitch ∈ Finset.range (N / pitch) :=
    Finset.mem_range.mpr (Nat.div_lt_div_of_lt_of_dvd hdvd hj)
  have hcover : ∀ k : ℕ, 0 < pitch → (k / pitch) * pitch ≤ k ∧ k < (k / pitch) * pitch + L := by
    intro k hk
    have hdm := Nat.div_add_mod k pitch
    have hmod := Nat.mod_lt k hk
    rw [mul_comm pitch (k / pitch)] at hdm
    constructor
    · exact Nat.div_mul_le_self k pitch
    · linarith
  have hterm : (if ((i / pitch) * pitch ≤ i ∧ i < (i / pitch) * pitch + L)
        ∧ ((j / pitch) * pitch ≤ j ∧ j < (j / pitch) * pitch + L)
      then (1 : ℕ) else 0) = 1 :=
    if_pos ⟨hcover i hp, hcover j hp⟩
  have hin : 1 ≤ ∑ qy ∈ Finset.range (N / pitch),
      if ((i / pitch) * pitch ≤ i ∧ i < (i / pitch) * pitch + L)
          ∧ (qy * pitch ≤ j ∧ j < qy * pitch + L) then 1 else 0 := by
    refine le_trans (le_of_eq hterm.symm) ?_
    exact Finset.single_le_sum (f := fun qy =>
      if ((i / pitch) * pitch ≤ i ∧ i < (i / pitch) * pitch + L)
          ∧ (qy * pitch ≤ j ∧ j < qy * pitch + L) then 1 else 0)
      (fun k _ => Nat.zero_le _) hqy
  calc (1 : ℕ) ≤ _ := hin
    _ ≤ ∑ qx ∈ Finset.range (N / pitch), ∑ qy ∈ Finset.range (N / pitch),
        if (qx * pitch ≤ i ∧ i < qx * pitch + L) ∧ (qy * pitch ≤ j ∧ j < qy * pitch + L)
        then 1 else 0 :=
      Finset.single_le_sum (f := fun qx => ∑ qy ∈ Finset.range (N / pitch),
        if (qx * pitch ≤ i ∧ i < qx * pitch + L) ∧ (qy * pitch ≤ j ∧ j < qy * pitch + L)
        then 1 else 0)
        (fun k _ => Nat.zero_le _) hqx

/-- C4 (amended): for every configuration with pitch dividing N and
pitch ≤ L ≤ N, every entry of the energy-normalization map is at least 1.
The extra hypothesis pitch ≤ L is forced: when L < pitch the strips between
window rows are covered by no window (see the counterexample). -/
theorem counts_ge_one (N L pitch i j : ℕ) (hdvd : pitch ∣ N) (hpL : pitch ≤ L)
    (hL : L ≤ N) (hi : i < N) (hj : j < N) :
    1 ≤ counts N L pitch i j := by
  have hp : 0 < pitch := by
    rcases Nat.eq_zero_or_pos pitch with h0 | h
    · subst h0
      rw [zero_dvd_iff] at hdvd
      omega
    · exact h
  have hgrid := one_le_countsGrid N L pitch i j hdvd hpL hi hj hp
  unfold counts
  exact le_trans hgrid (le_trans (Nat.le_add_right _ _)
    (le_trans (Nat.le_add_right _ _) (Nat.le_add_right _ _)))

/-- Closed instance of the amended C4 theorem at N = 4, L = 2, pitch = 2. -/
theorem counts_ge_one_witness :
    (2 ∣ 4 ∧ 2 ≤ 2 ∧ 2 ≤ 4 ∧ 3 < 4) ∧ 1 ≤ counts 4 2 2 3 3 :=
  ⟨by decide, counts_ge_one 4 2 2 3 3 (by decide) (by decide) (by decide)
    (by decide) (by decide)⟩

lemma sum4_comm {M : Type} [AddCommMonoid M] (s t : Finset ℕ)
    (f : ℕ → ℕ → ℕ → ℕ → M) :
    ∑ i ∈ s, ∑ j ∈ s, ∑ a ∈ t, ∑ b ∈ t, f i j a b
      = ∑ a ∈ t, ∑ b ∈ t, ∑ i ∈ s, ∑ j ∈ s, f i j a b :=
  calc ∑ i ∈ s, ∑ j ∈ s, ∑ a ∈ t, ∑ b ∈ t, f i j a b
      = ∑ i ∈ s, ∑ a ∈ t, ∑ j ∈ s, ∑ b ∈ t, f i j a b :=
        Finset.sum_congr rfl fun i _ => Finset.sum_comm
    _ = ∑ a ∈ t, ∑ i ∈ s, ∑ j ∈ s, ∑ b ∈ t, f i j a b := Finset.sum_comm
    _ = ∑ a ∈ t, ∑ i ∈ s, ∑ b ∈ t, ∑ j ∈ s, f i j a b :=
        Finset.sum_congr rfl fun a _ => Finset.sum_congr rfl fun i _ =>
          Finset.sum_comm
    _ = ∑ a ∈ t, ∑ b ∈ t, ∑ i ∈ s, ∑ j ∈ s, f i j a b :=
        Finset.sum_congr rfl fun a _ => Finset.sum_comm

lemma boole_and_mul (P Q : Prop) [Decidable P] [Decidable Q] :
    (if P ∧ Q then (1 : ℕ) else 0) = (if P then 1 else 0) * (if Q then 1 else 0) := by
  by_cases hP : P <;> by_cases hQ : Q <;> simp [hP, hQ]

lemma sum_ite_window (M a L : ℕ) (h : a + L ≤ M) :
    (∑ i ∈ Finset.range M, if a ≤ i ∧ i < a + L then (1 : ℕ) else 0) = L := by
  rw [Finset.sum_boole]
  rw [show Finset.filter (fun i => a ≤ i ∧ i < a + L) (Finset.range M)
        = Finset.Ico a (a + L) by
    ext k
    simp only [Finset.mem_filter, Finset.mem_range, Finset.mem_Ico]
    omega]
  simp [Nat.card_Ico]

lemma sum_range_two_mul {M : Type} [AddCommMonoid M] (N : ℕ) (f : ℕ → M) :
    ∑ i ∈ Finset.range (2 * N), f i
      = ∑ i ∈ Finset.range N, f i + ∑ i ∈ Finset.range N, f (i + N) := by
  rw [two_mul, Finset.range_eq_Ico,
    ← Finset.sum_Ico_consecutive f (Nat.zero_le N) (Nat.le_add_right N N),
    ← Finset.range_eq_Ico, Finset.sum_Ico_eq_sum_range]
  simp only [Nat.add_sub_cancel_left]
  exact congrArg (HAdd.hAdd _) (Finset.sum_congr rfl fun i _ => by rw [Nat.add_comm])

/-- Total number of measured windows, `total_frame = int(N/pitch)**2`. -/
def totalFrame (N pitch : ℕ) : ℕ := (N / pitch) ^ 2

/-- Sum of all entries of the folded energy-normalization map. -/
def sumCounts (N L pitch : ℕ) : ℕ :=
  ∑ i ∈ Finset.range N, ∑ j ∈ Finset.range N, counts N L pitch i j

/-- C9: for every configuration with pitch dividing N and L ≤ N, the entries
of the energy-normalization map sum to exactly total_frame times L squared:
the quadrant fold preserves the total count of window-footprint increments. -/
theorem counts_total_sum (N L pitch : ℕ) (hdvd : pitch ∣ N) (hL : L ≤ N) :
    sumCounts N L pitch = totalFrame N pitch * L ^ 2 := by
  have hrow : ∀ r : ℕ, ∑ j ∈ Finset.range (2 * N), countsGrid N L pitch r j
      = ∑ j ∈ Finset.range N,
          (countsGrid N L pitch r j + countsGrid N L pitch r (j + N)) := by
    intro r
    rw [sum_range_two_mul, Finset.sum_add_distrib]
  have h1 : (∑ i ∈ Finset.range (2 * N), ∑ j ∈ Finset.range (2 * N),
        countsGrid N L pitch i j)
      = sumCounts N L pitch := by
    rw [sum_range_two_mul N
      (f := fun i => ∑ j ∈ Finset.range (2 * N), countsGrid N L pitch i j)]
    simp only [hrow]
    unfold sumCounts counts
    simp only [Finset.sum_add_distrib]
    ring
  rw [← h1]
  unfold countsGrid
  rw [sum4_comm]
  have hblock : ∀ q : ℕ, q ∈ Finset.range (N / pitch) → q * pitch + L ≤ 2 * N := by
    intro q hq
    have hmul : (q + 1) * pitch ≤ N := by
      have h' := Nat.mul_le_mul_right pitch (Nat.succ_le_of_lt (Finset.mem_range.mp hq))
      rwa [Nat.div_mul_cancel hdvd] at h'
    have hqp : q * pitch ≤ N := by
      rw [Nat.succ_mul] at hmul
      exact le_trans (Nat.le_add_right _ _) hmul
    calc q * pitch + L ≤ N + N := Nat.add_le_add hqp hL
      _ = 2 * N := (two_mul N).symm
  have h2 : ∀ qx ∈ Finset.range (N / pitch), ∀ qy ∈ Finset.range (N / pitch),
      (∑ i ∈ Finset.range (2 * N), ∑ j ∈ Finset.range (2 * N),
        if (qx * pitch ≤ i ∧ i < qx * pitch + L) ∧ (qy * pitch ≤ j ∧ j < qy * pitch + L)
        then (1 : ℕ) else 0) = L * L := by
    intro qx hqx qy hqy
    have hsplit : ∀ i j : ℕ,
        (if (qx * pitch ≤ i ∧ i < qx * pitch + L) ∧ (qy * pitch ≤ j ∧ j < qy * pitch + L)
          then (1 : ℕ) else 0)
          = (if qx * pitch ≤ i ∧ i < qx * pitch + L then (1 : ℕ) else 0)
            * (if qy * pitch ≤ j ∧ j < qy * pitch + L then (1 : ℕ) else 0) :=
      fun i j => boole_and_mul _ _
    simp only [hsplit]
    rw [← Finset.sum_mul_sum]
    rw [sum_ite_window _ _ _ (hblock qx hqx), sum_ite_window _ _ _ (hblock qy hqy)]
  calc ∑ qx ∈ Finset.range (N / pitch), ∑ qy ∈ Finset.range (N / pitch),
        (∑ i ∈ Finset.range (2 * N), ∑ j ∈ Finset.range (2 * N),
          if (qx * pitch ≤ i ∧ i < qx * pitch + L) ∧ (qy * pitch ≤ j ∧ j < qy * pitch + L)
          then (1 : ℕ) else 0)
      = ∑ qx ∈ Finset.range (N / pitch), ∑ qy ∈ Finset.range (N / pitch), L * L :=
        Finset.sum_congr rfl fun qx hqx => Finset.sum_congr rfl fun qy hqy =>
          h2 qx hqx qy hqy
    _ = totalFrame N pitch * L ^ 2 := by
        simp only [Finset.sum_const, Finset.card_range, smul_eq_mul]
        unfold totalFrame
        ring

/-- Closed instance of the C9 theorem at N = 2, L = 1, pitch = 1. -/
theorem counts_total_sum_witness :
    (1 ∣ 2 ∧ 1 ≤ 2) ∧ sumCounts 2 1 1 = totalFrame 2 1 * 1 ^ 2 :=
  ⟨by decide, counts_total_sum 2 1 1 (by decide) (by decide)⟩

/-- Wrap-aware scatter-accumulation of one window's gradient block B into the
N by N accumulator S at window top-left (x, y), following the four
`gradient_sum[...] += gradient_tensor[i,...]` branches of `run_simulation`. -/
def scatterOne (N L x y : ℕ) (S B : ℕ → ℕ → ℂ) : ℕ → ℕ → ℂ := fun i j =>
  if ¬ x > N - L ∧ ¬ y > N - L then
    if x ≤ i ∧ i < x + L ∧ y ≤ j ∧ j < y + L then S i j + B (i - x) (j - y) else S i j
  else if x > N - L ∧ ¬ y > N - L then
    if x ≤ i ∧ i < N ∧ y ≤ j ∧ j < y + L then S i j + B (i - x) (j - y)
    else if i < L + x - N ∧ y ≤ j ∧ j < y + L then S i j + B (N - x + i) (j - y)
    else S i j
  else if ¬ x > N - L ∧ y > N - L then
    if x ≤ i ∧ i < x + L ∧ y ≤ j ∧ j < N then S i j + B (i - x) (j - y)
    else if x ≤ i ∧ i < x + L ∧ j < L + y - N then S i j + B (i - x) (N - y + j)
    else S i j
  else
    if x ≤ i ∧ i < N ∧ y ≤ j ∧ j < N then S i j + B (i - x) (j - y)
    else if i < L + x - N ∧ j < L + y - N then S i j + B (N - x + i) (N - y + j)
    else if x ≤ i ∧ i < N ∧ j < L + y - N then S i j + B (i - x) (N - y + j)
    else if i < L + x - N ∧ y ≤ j ∧ j < N then S i j + B (N - x + i) (j - y)
    else S i j

/-- The ordered window top-left coordinates: `np.meshgrid` of
`np.arange(0, N, pitch)` with itself, flattened row-major, so the x
coordinate varies fastest. -/
def windowCoords (N pitch : ℕ) : List (ℕ × ℕ) :=
  (List.range (N / pitch)).flatMap fun r =>
    (List.range (N / pitch)).map fun c => (c * pitch, r * pitch)

/-- Scatter-accumulation of all per-window gradient blocks G into an
accumulator initialised to zeros, one `scatterOne` per window. -/
def scatterAll (N L : ℕ) (ws : List (ℕ × ℕ)) (G : ℕ × ℕ → ℕ → ℕ → ℂ) :
    ℕ → ℕ → ℂ :=
  ws.foldl (fun S w => scatterOne N L w.1 w.2 S (G w)) (fun _ _ => 0)

/-- One gradient-refinement update of the spectrum estimate:
`imageRecoverFT - lr * gradient_sum / counts`, elementwise. -/
noncomputable def gdUpdate (N L pitch : ℕ) (lr : ℝ) (c : ℕ → ℕ → ℕ)
    (A : ℕ → ℕ → ℂ) (G : ℕ × ℕ → ℕ → ℕ → ℂ) : ℕ → ℕ → ℂ := fun i j =>
  A i j - (lr : ℂ) * scatterAll N L (windowCoords N pitch) G i j / (c i j : ℂ)

lemma scatterOne_zero (N L x y : ℕ) (S B : ℕ → ℕ → ℂ)
    (hB : ∀ a b, B a b = 0) : scatterOne N L x y S B = S := by
  funext i j
  unfold scatterOne
  split_ifs <;> simp [hB]

lemma scatterAll_zero (N L : ℕ) (ws : List (ℕ × ℕ)) (G : ℕ × ℕ → ℕ → ℕ → ℂ)
    (hG : ∀ w a b, G w a b = 0) :
    scatterAll N L ws G = fun _ _ => (0 : ℂ) := by
  unfold scatterAll
  have key : ∀ (l : List (ℕ × ℕ)) (S : ℕ → ℕ → ℂ),
      l.foldl (fun S w => scatterOne N L w.1 w.2 S (G w)) S = S := by
    intro l
    induction l with
    | nil => intro S; rfl
    | cons w l ih =>
        intro S
        rw [List.foldl_cons, scatterOne_zero N L w.1 w.2 S (G w) (hG w)]
        exact ih S
  exact key _ _

/-- C5: zero gradient is a fixed point of the refinement update: when every
per-window gradient block is zero, the wrap-aware scatter-accumulation,
normalization by the energy map, and the learning-rate update leave the
spectrum estimate unchanged at every pixel. -/
theorem zero_gradient_fixed_point (N L pitch : ℕ) (lr : ℝ) (c : ℕ → ℕ → ℕ)
    (A : ℕ → ℕ → ℂ) (G : ℕ × ℕ → ℕ → ℕ → ℂ) (i j : ℕ)
    (hc : ∀ a b, 1 ≤ c a b) (hG : ∀ w a b, G w a b = 0) :
    gdUpdate N L pitch lr c A G i j = A i j := by
  unfold gdUpdate
  rw [scatterAll_zero N L (windowCoords N pitch) G hG]
  simp

/-- Closed instance of the C5 theorem at N = L = pitch = 1, unit counts map,
zero gradients. -/
theorem zero_gradient_fixed_point_witness :
    (∀ a b : ℕ, 1 ≤ (fun _ _ : ℕ => 1) a b) ∧
      gdUpdate 1 1 1 (1 / 2) (fun _ _ => 1) (fun i j => (i : ℂ) + 7 * j)
        (fun _ _ _ => 0) 0 0 = (fun (i j : ℕ) => (i : ℂ) + 7 * j) 0 0 :=
  ⟨fun _ _ => le_refl 1,
    zero_gradient_fixed_point 1 1 1 (1 / 2) (fun _ _ => 1)
      (fun i j => (i : ℂ) + 7 * j) (fun _ _ _ => 0) 0 0
      (fun _ _ => le_refl 1) (fun _ _ _ => rfl)⟩

/-- Instrumented alternating-projections stage: `for loop in range(K)` outer
loops, each visiting the shuffled window order `order loop` and applying one
projection step per window; the second component counts the per-window steps
executed. -/
def apStageCounted {St : Type} (stepW : ℕ → St → St) (order : ℕ → List ℕ)
    (K : ℕ) (s : St) : St × ℕ :=
  (List.range K).foldl
    (fun p k => (order k).foldl (fun q i => (stepW i q.1, q.2 + 1)) p)
    (s, 0)

/-- Instrumented gradient-refinement stage: `for iter_ in range(K)` iterations
of one update step; the second component counts the iterations executed. -/
def gdStageCounted {St : Type} (step : St → St) (K : ℕ) (s : St) : St × ℕ :=
  (List.range K).foldl (fun p _ => (step p.1, p.2 + 1)) (s, 0)

lemma apInner_count {St : Type} (stepW : ℕ → St → St) (l : List ℕ)
    (p : St × ℕ) :
    (l.foldl (fun q i => (stepW i q.1, q.2 + 1)) p).2 = p.2 + l.length := by
  induction l generalizing p with
  | nil => simp
  | cons a l ih =>
      rw [List.foldl_cons, ih]
      simp only [List.length_cons]
      omega

/-- C8: both solver stages terminate unconditionally after the fixed
caller-specified number of steps, for every input state and every shuffled
window order: the alternating-projections stage executes exactly
K1 * total_frame per-window projection steps (K1 outer loops each visiting
all total_frame windows) and the gradient-refinement stage executes exactly
K2 iterations; no convergence test shortens or extends either stage. -/
theorem stages_step_counts {St : Type} (stepW : ℕ → St → St) (step : St → St)
    (order : ℕ → List ℕ) (N pitch K1 K2 : ℕ) (s s2 : St)
    (hord : ∀ k, (order k).Perm (List.range (totalFrame N pitch))) :
    (apStageCounted stepW order K1 s).2 = K1 * totalFrame N pitch ∧
      (gdStageCounted step K2 s2).2 = K2 := by
  constructor
  · have hlen : ∀ k, (order k).length = totalFrame N pitch := by
      intro k
      rw [(hord k).length_eq, List.length_range]
    unfold apStageCounted
    induction K1 with
    | zero => simp
    | succ K ih =>
        rw [List.range_succ, List.foldl_append, List.foldl_cons, List.foldl_nil,
          apInner_count, ih, hlen]
        ring
  · unfold gdStageCounted
    induction K2 with
    | zero => simp
    | succ K ih =>
        rw [List.range_succ, List.foldl_append, List.foldl_cons, List.foldl_nil,
          ih]

/-- Closed instance of the C8 theorem: one window per loop, K1 = 2 outer
loops, K2 = 3 refinement iterations, on a unit state. -/
theorem stages_step_counts_witness :
    (∀ k : ℕ, ((fun _ : ℕ => [0]) k).Perm (List.range (totalFrame 1 1))) ∧
      (apStageCounted (fun _ (s : Unit) => s) (fun _ => [0]) 2 ()).2
          = 2 * totalFrame 1 1 ∧
        (gdStageCounted (fun s : Unit => s) 3 ()).2 = 3 :=
  ⟨fun _ => List.Perm.refl _,
    stages_step_counts (fun _ (s : Unit) => s) (fun s => s) (fun _ => [0]) 1 1 2 3 () ()
      (fun _ => List.Perm.refl _)⟩

/-- Symmetric zero padding `np.pad(W, p)` of an L by L block to (L + 2p) square. -/
def padC (p L : ℕ) (W : ℕ → ℕ → ℂ) (i j : ℕ) : ℂ :=
  if p ≤ i ∧ i < p + L ∧ p ≤ j ∧ j < p + L then W (i - p) (j - p) else 0

/-- Two-axis `ifftshift` on an M by M array: entry (u, v) reads the source at
((u + M/2) mod M, (v + M/2) mod M), matching the numpy/tensorflow roll by
minus floor(M/2) on each axis. -/
def ifftshift2 (M : ℕ) (X : ℕ → ℕ → ℂ) (u v : ℕ) : ℂ :=
  X ((u + M / 2) % M) ((v + M / 2) % M)

/-- The inverse 2D discrete Fourier transform with the 1/M normalization per
axis used by `np.fft.ifft2` and `tf.signal.ifft2d`. -/
noncomputable def ifft2 (M : ℕ) (X : ℕ → ℕ → ℂ) (u v : ℕ) : ℂ :=
  (∑ a ∈ Finset.range M, ∑ b ∈ Finset.range M,
    X a b * Complex.exp ((2 * Real.pi * Complex.I)
      * (((u * a : ℕ) : ℂ) / (M : ℂ) + ((v * b : ℕ) : ℂ) / (M : ℂ))))
    / ((M : ℂ) * (M : ℂ))

/-- The measurement-synthesis forward chain of `run_simulation`:
`np.abs(np.fft.ifft2(np.fft.ifftshift(np.pad(W * mask, p)))) * M` (mask branch)
or the same without the mask multiply, with M = L + p * 2. -/
noncomputable def measFrame (is_mask : Bool) (mask : ℕ → ℕ → ℂ) (p L : ℕ)
    (W : ℕ → ℕ → ℂ) (u v : ℕ) : ℝ :=
  Complex.abs (ifft2 (L + p * 2) (ifftshift2 (L + p * 2)
      (if is_mask then padC p L (fun a b => W a b * mask a b) else padC p L W)) u v)
    * ((L + p * 2 : ℕ) : ℝ)

/-- The tensorflow graph's FORWARD node applied to batch element n:
`tf.abs(tf.signal.ifft2d(tf.signal.ifftshift(tf.pad(tf.multiply(X, MASK) or X,
paddings), [1, 2]))) * M`. -/
noncomputable def tfForward (is_mask : Bool) (mask : ℕ → ℕ → ℂ) (p L : ℕ)
    (batch : ℕ → ℕ → ℕ → ℂ) (n u v : ℕ) : ℝ :=
  Complex.abs (ifft2 (L + p * 2) (ifftshift2 (L + p * 2)
      (if is_mask then padC p L (fun a b => batch n a b * mask a b)
       else padC p L (batch n))) u v)
    * ((L + p * 2 : ℕ) : ℝ)

/-- C6: the forward measurement chain computes the same function in the
measurement-synthesis path and in the gradient-loss path: for every window
block the two paths yield identical amplitude values at every pixel, with or
without a mask. -/
theorem forward_chain_paths_agree (is_mask : Bool) (mask : ℕ → ℕ → ℂ)
    (p L : ℕ) (batch : ℕ → ℕ → ℕ → ℂ) (n u v : ℕ) :
    tfForward is_mask mask p L batch n u v
      = measFrame is_mask mask p L (batch n) u v := rfl

/-- The tensorflow graph's loss node:
`reduce_sum(square(abs(MEASUREMENT) - abs(FORWARD)))` over the whole batch of
total_frame windows and all M by M pixels. -/
noncomputable def tfLoss (is_mask : Bool) (mask : ℕ → ℕ → ℂ) (p L F : ℕ)
    (meas : ℕ → ℕ → ℕ → ℝ) (batch : ℕ → ℕ → ℕ → ℂ) : ℝ :=
  ∑ n ∈ Finset.range F, ∑ u ∈ Finset.range (L + p * 2), ∑ v ∈ Finset.range (L + p * 2),
    (|meas n u v| - |tfForward is_mask mask p L batch n u v|) ^ 2

/-- The complex field of the forward chain before the magnitude is taken:
the window block (masked if configured), zero-padded, ifftshifted and
inverse-transformed.  The chain FORWARD equals Complex.abs of this field
times M. -/
noncomputable def fwdField (is_mask : Bool) (mask : ℕ → ℕ → ℂ) (p L : ℕ)
    (W : ℕ → ℕ → ℂ) : ℕ → ℕ → ℂ :=
  ifft2 (L + p * 2) (ifftshift2 (L + p * 2)
    (if is_mask then padC p L (fun a b => W a b * mask a b) else padC p L W))

/-- Modelled from the spec: the gradient of the per-pixel amplitude loss term
(measured - M |z|)^2 with respect to conj z, obtained by the chain rule
through the magnitude: the outer derivative 2 (M |z| - measured) M times the
Wirtinger derivative z / (2 |z|) of |z|, with the zero-gradient convention at
z = 0 that the spec prescribes for the nondifferentiable point.  The source
obtains this gradient through tf.gradients, an external automatic
differentiation engine whose implementation is not part of this repository. -/
noncomputable def gAmp (Mv : ℕ) (m : ℝ) (z : ℂ) : ℂ :=
  if z = 0 then 0
  else (((2 * ((Mv : ℝ) * Complex.abs z - m)) * (Mv : ℝ) : ℝ) : ℂ)
    * (z / (2 * ((Complex.abs z : ℝ) : ℂ)))

/-- The conjugate transpose of the `ifft2` kernel: the adjoint of the inverse
transform with respect to the unweighted complex dot product. -/
noncomputable def ifft2Adj (M : ℕ) (V : ℕ → ℕ → ℂ) (a b : ℕ) : ℂ :=
  (∑ u ∈ Finset.range M, ∑ v ∈ Finset.range M,
    V u v * Complex.exp ((-(2 * Real.pi * Complex.I))
      * (((u * a : ℕ) : ℂ) / (M : ℂ) + ((v * b : ℕ) : ℂ) / (M : ℂ))))
    / ((M : ℂ) * (M : ℂ))

/-- The adjoint (= inverse) of the `ifftshift` index rotation on each axis. -/
def ifftshift2Adj (M : ℕ) (V : ℕ → ℕ → ℂ) (i j : ℕ) : ℂ :=
  V ((i + (M - M / 2)) % M) ((j + (M - M / 2)) % M)

/-- The adjoint of symmetric zero padding: cropping the central L by L block. -/
def cropC (p : ℕ) (V : ℕ → ℕ → ℂ) (a b : ℕ) : ℂ := V (a + p) (b + p)

/-- Modelled from the spec: the analytically derived Wirtinger gradient of the
amplitude-squared loss with respect to the conjugate of one window's spectrum
block, as the hard-coded adjoint chain of section 4.5 step 3: the per-pixel
magnitude gradient gAmp, pulled back through the adjoint of the inverse
transform, the adjoint of the ifftshift, the crop adjoint of the padding, and
multiplication by the conjugate mask when a mask is configured. -/
noncomputable def analyticGrad (is_mask : Bool) (mask : ℕ → ℕ → ℂ) (p L : ℕ)
    (meas : ℕ → ℕ → ℝ) (W : ℕ → ℕ → ℂ) (a b : ℕ) : ℂ :=
  if is_mask then
    (starRingEnd ℂ) (mask a b)
      * cropC p (ifftshift2Adj (L + p * 2) (ifft2Adj (L + p * 2)
          (fun u v => gAmp (L + p * 2) |meas u v|
            (fwdField is_mask mask p L W u v)))) a b
  else
    cropC p (ifftshift2Adj (L + p * 2) (ifft2Adj (L + p * 2)
      (fun u v => gAmp (L + p * 2) |meas u v|
        (fwdField is_mask mask p L W u v)))) a b

lemma mod_shift_inv (M i : ℕ) (hi : i < M) :
    ((i + M / 2) % M + (M - M / 2)) % M = i := by
  rw [Nat.mod_add_mod]
  rw [show i + M / 2 + (M - M / 2) = i + M by omega]
  rw [Nat.add_mod_right, Nat.mod_eq_of_lt hi]

lemma mod_shift_inv2 (M i : ℕ) (hi : i < M) :
    ((i + (M - M / 2)) % M + M / 2) % M = i := by
  rw [Nat.mod_add_mod]
  rw [show i + (M - M / 2) + M / 2 = i + M by omega]
  rw [Nat.add_mod_right, Nat.mod_eq_of_lt hi]

lemma sum_shift_reindex (M : ℕ) (F : ℕ → ℂ) :
    ∑ u ∈ Finset.range M, F ((u + M / 2) % M) = ∑ u ∈ Finset.range M, F u := by
  refine Finset.sum_nbij' (fun u => (u + M / 2) % M)
    (fun u => (u + (M - M / 2)) % M) ?_ ?_ ?_ ?_ ?_
  · intro a ha
    exact Finset.mem_range.mpr
      (Nat.mod_lt _ (Nat.pos_of_ne_zero fun h0 => by
        have := Finset.mem_range.mp ha; omega))
  · intro a ha
    exact Finset.mem_range.mpr
      (Nat.mod_lt _ (Nat.pos_of_ne_zero fun h0 => by
        have := Finset.mem_range.mp ha; omega))
  · intro a ha
    exact mod_shift_inv M a (Finset.mem_range.mp ha)
  · intro a ha
    exact mod_shift_inv2 M a (Finset.mem_range.mp ha)
  · intro a _
    rfl

lemma adj_kernel (M : ℕ) (D : ℂ) (E : ℕ → ℕ → ℕ → ℕ → ℂ) (g X : ℕ → ℕ → ℂ)
    (hD : (starRingEnd ℂ) D = D) :
    (∑ u ∈ Finset.range M, ∑ v ∈ Finset.range M,
      (starRingEnd ℂ) (g u v)
        * ((∑ a ∈ Finset.range M, ∑ b ∈ Finset.range M, X a b * E u v a b) / D))
    = ∑ a ∈ Finset.range M, ∑ b ∈ Finset.range M,
      (starRingEnd ℂ) ((∑ u ∈ Finset.range M, ∑ v ∈ Finset.range M,
          g u v * (starRingEnd ℂ) (E u v a b)) / D) * X a b := by
  have hstep : ∀ u v : ℕ,
      (starRingEnd ℂ) (g u v)
          * ((∑ a ∈ Finset.range M, ∑ b ∈ Finset.range M, X a b * E u v a b) / D)
        = ∑ a ∈ Finset.range M, ∑ b ∈ Finset.range M,
            (starRingEnd ℂ) (g u v) * (X a b * E u v a b) / D := by
    intro u v
    rw [← mul_div_assoc, Finset.mul_sum, Finset.sum_div]
    refine Finset.sum_congr rfl fun a _ => ?_
    rw [Finset.mul_sum, Finset.sum_div]
  have hstep2 : ∀ a b : ℕ,
      (starRingEnd ℂ) ((∑ u ∈ Finset.range M, ∑ v ∈ Finset.range M,
          g u v * (starRingEnd ℂ) (E u v a b)) / D) * X a b
        = ∑ u ∈ Finset.range M, ∑ v ∈ Finset.range M,
            (starRingEnd ℂ) (g u v) * (X a b * E u v a b) / D := by
    intro a b
    rw [map_div₀, hD, map_sum]
    simp only [map_sum, map_mul, Complex.conj_conj]
    rw [div_mul_eq_mul_div, Finset.sum_mul, Finset.sum_div]
    refine Finset.sum_congr rfl fun u _ => ?_
    rw [Finset.sum_mul, Finset.sum_div]
    refine Finset.sum_congr rfl fun v _ => ?_
    ring
  calc (∑ u ∈ Finset.range M, ∑ v ∈ Finset.range M,
        (starRingEnd ℂ) (g u v)
          * ((∑ a ∈ Finset.range M, ∑ b ∈ Finset.range M, X a b * E u v a b) / D))
      = ∑ u ∈ Finset.range M, ∑ v ∈ Finset.range M, ∑ a ∈ Finset.range M,
          ∑ b ∈ Finset.range M,
          (starRingEnd ℂ) (g u v) * (X a b * E u v a b) / D :=
        Finset.sum_congr rfl fun u _ => Finset.sum_congr rfl fun v _ => hstep u v
    _ = ∑ a ∈ Finset.range M, ∑ b ∈ Finset.range M, ∑ u ∈ Finset.range M,
          ∑ v ∈ Finset.range M,
          (starRingEnd ℂ) (g u v) * (X a b * E u v a b) / D :=
        sum4_comm (Finset.range M) (Finset.range M) _
    _ = ∑ a ∈ Finset.range M, ∑ b ∈ Finset.range M,
          (starRingEnd ℂ) ((∑ u ∈ Finset.range M, ∑ v ∈ Finset.range M,
              g u v * (starRingEnd ℂ) (E u v a b)) / D) * X a b :=
        Finset.sum_congr rfl fun a _ => Finset.sum_congr rfl fun b _ =>
          (hstep2 a b).symm

lemma conj_exp_kernel (M u a v b : ℕ) :
    (starRingEnd ℂ) (Complex.exp ((2 * Real.pi * Complex.I)
        * (((u * a : ℕ) : ℂ) / (M : ℂ) + ((v * b : ℕ) : ℂ) / (M : ℂ))))
    = Complex.exp ((-(2 * Real.pi * Complex.I))
        * (((u * a : ℕ) : ℂ) / (M : ℂ) + ((v * b : ℕ) : ℂ) / (M : ℂ))) := by
  rw [← Complex.exp_conj]
  congr 1
  simp only [map_mul, map_add, map_div₀, map_neg, map_ofNat,
    Complex.conj_natCast, Complex.conj_I, Complex.conj_ofReal]
  ring

lemma adj_ifft2 (M : ℕ) (g X : ℕ → ℕ → ℂ) :
    (∑ u ∈ Finset.range M, ∑ v ∈ Finset.range M,
      (starRingEnd ℂ) (g u v) * ifft2 M X u v)
    = ∑ a ∈ Finset.range M, ∑ b ∈ Finset.range M,
      (starRingEnd ℂ) (ifft2Adj M g a b) * X a b := by
  unfold ifft2 ifft2Adj
  have hker : ∀ u v a b : ℕ,
      Complex.exp ((-(2 * Real.pi * Complex.I))
          * (((u * a : ℕ) : ℂ) / (M : ℂ) + ((v * b : ℕ) : ℂ) / (M : ℂ)))
        = (starRingEnd ℂ) (Complex.exp ((2 * Real.pi * Complex.I)
          * (((u * a : ℕ) : ℂ) / (M : ℂ) + ((v * b : ℕ) : ℂ) / (M : ℂ)))) :=
    fun u v a b => (conj_exp_kernel M u a v b).symm
  simp only [hker]
  exact adj_kernel M ((M : ℂ) * (M : ℂ))
    (fun u v a b => Complex.exp ((2 * Real.pi * Complex.I)
      * (((u * a : ℕ) : ℂ) / (M : ℂ) + ((v * b : ℕ) : ℂ) / (M : ℂ)))) g X
    (by simp [map_mul, Complex.conj_natCast])

lemma adj_shift (M : ℕ) (h X : ℕ → ℕ → ℂ) :
    (∑ i ∈ Finset.range M, ∑ j ∈ Finset.range M,
      (starRingEnd ℂ) (h i j) * ifftshift2 M X i j)
    = ∑ i ∈ Finset.range M, ∑ j ∈ Finset.range M,
      (starRingEnd ℂ) (ifftshift2Adj M h i j) * X i j := by
  have key : ∀ i ∈ Finset.range M, ∀ j ∈ Finset.range M,
      (starRingEnd ℂ) (h i j) * ifftshift2 M X i j
        = (starRingEnd ℂ) (ifftshift2Adj M h ((i + M / 2) % M) ((j + M / 2) % M))
            * X ((i + M / 2) % M) ((j + M / 2) % M) := by
    intro i hi j hj
    unfold ifftshift2 ifftshift2Adj
    rw [mod_shift_inv M i (Finset.mem_range.mp hi),
      mod_shift_inv M j (Finset.mem_range.mp hj)]
  calc (∑ i ∈ Finset.range M, ∑ j ∈ Finset.range M,
        (starRingEnd ℂ) (h i j) * ifftshift2 M X i j)
      = ∑ i ∈ Finset.range M, ∑ j ∈ Finset.range M,
          (starRingEnd ℂ) (ifftshift2Adj M h ((i + M / 2) % M) ((j + M / 2) % M))
            * X ((i + M / 2) % M) ((j + M / 2) % M) :=
        Finset.sum_congr rfl fun i hi => Finset.sum_congr rfl fun j hj =>
          key i hi j hj
    _ = ∑ i ∈ Finset.range M, ∑ j ∈ Finset.range M,
          (starRingEnd ℂ) (ifftshift2Adj M h ((i + M / 2) % M) j)
            * X ((i + M / 2) % M) j :=
        Finset.sum_congr rfl fun i _ => sum_shift_reindex M
          (fun r => (starRingEnd ℂ) (ifftshift2Adj M h ((i + M / 2) % M) r)
            * X ((i + M / 2) % M) r)
    _ = ∑ i ∈ Finset.range M, ∑ j ∈ Finset.range M,
          (starRingEnd ℂ) (ifftshift2Adj M h i j) * X i j :=
        sum_shift_reindex M (fun r => ∑ j ∈ Finset.range M,
          (starRingEnd ℂ) (ifftshift2Adj M h r j) * X r j)

lemma sum_window_shift (Mv p L : ℕ) (h : p + L ≤ Mv) (f : ℕ → ℂ)
    (hf : ∀ i, i < p ∨ p + L ≤ i → f i = 0) :
    ∑ i ∈ Finset.range Mv, f i = ∑ a ∈ Finset.range L, f (a + p) := by
  have hsub : Finset.Ico p (p + L) ⊆ Finset.range Mv := by
    intro k hk
    rw [Finset.mem_Ico] at hk
    exact Finset.mem_range.mpr (lt_of_lt_of_le hk.2 h)
  have h1 : ∑ i ∈ Finset.Ico p (p + L), f i = ∑ i ∈ Finset.range Mv, f i := by
    refine Finset.sum_subset hsub fun x _ hx => ?_
    rw [Finset.mem_Ico] at hx
    exact hf x (by omega)
  rw [← h1, Finset.sum_Ico_eq_sum_range]
  simp only [Nat.add_sub_cancel_left]
  exact Finset.sum_congr rfl fun a _ => by rw [Nat.add_comm]

lemma adj_pad (Mv p L : ℕ) (h : p + L ≤ Mv) (k X : ℕ → ℕ → ℂ) :
    (∑ i ∈ Finset.range Mv, ∑ j ∈ Finset.range Mv,
      (starRingEnd ℂ) (k i j) * padC p L X i j)
    = ∑ a ∈ Finset.range L, ∑ b ∈ Finset.range L,
      (starRingEnd ℂ) (k (a + p) (b + p)) * X a b := by
  have hout : ∀ i, i < p ∨ p + L ≤ i →
      (∑ j ∈ Finset.range Mv, (starRingEnd ℂ) (k i j) * padC p L X i j) = 0 := by
    intro i hi
    refine Finset.sum_eq_zero fun j _ => ?_
    unfold padC
    rw [if_neg (by omega), mul_zero]
  rw [sum_window_shift Mv p L h _ hout]
  refine Finset.sum_congr rfl fun a ha => ?_
  have haL : a < L := Finset.mem_range.mp ha
  have hin : ∀ j, j < p ∨ p + L ≤ j →
      (starRingEnd ℂ) (k (a + p) j) * padC p L X (a + p) j = 0 := by
    intro j hj
    unfold padC
    rw [if_neg (by omega), mul_zero]
  rw [sum_window_shift Mv p L h _ hin]
  refine Finset.sum_congr rfl fun b hb => ?_
  have hbL : b < L := Finset.mem_range.mp hb
  unfold padC
  rw [if_pos (by omega)]
  rw [Nat.add_sub_cancel, Nat.add_sub_cancel]

lemma adj_mask (L : ℕ) (mask k H : ℕ → ℕ → ℂ) :
    (∑ a ∈ Finset.range L, ∑ b ∈ Finset.range L,
      (starRingEnd ℂ) (k a b) * (H a b * mask a b))
    = ∑ a ∈ Finset.range L, ∑ b ∈ Finset.range L,
      (starRingEnd ℂ) ((starRingEnd ℂ) (mask a b) * k a b) * H a b := by
  refine Finset.sum_congr rfl fun a _ => Finset.sum_congr rfl fun b _ => ?_
  simp only [map_mul, Complex.conj_conj]
  ring

lemma padC_linear (p L : ℕ) (X Y : ℕ → ℕ → ℂ) (c : ℂ) (i j : ℕ) :
    padC p L (fun a b => X a b + c * Y a b) i j
      = padC p L X i j + c * padC p L Y i j := by
  unfold padC
  split_ifs <;> ring

lemma ifft2_linear (M : ℕ) (X Y : ℕ → ℕ → ℂ) (c : ℂ) (u v : ℕ) :
    ifft2 M (fun a b => X a b + c * Y a b) u v
      = ifft2 M X u v + c * ifft2 M Y u v := by
  simp only [ifft2]
  have hsum : (∑ a ∈ Finset.range M, ∑ b ∈ Finset.range M,
      (X a b + c * Y a b) * Complex.exp ((2 * Real.pi * Complex.I)
        * (((u * a : ℕ) : ℂ) / (M : ℂ) + ((v * b : ℕ) : ℂ) / (M : ℂ))))
      = (∑ a ∈ Finset.range M, ∑ b ∈ Finset.range M,
          X a b * Complex.exp ((2 * Real.pi * Complex.I)
            * (((u * a : ℕ) : ℂ) / (M : ℂ) + ((v * b : ℕ) : ℂ) / (M : ℂ))))
        + c * (∑ a ∈ Finset.range M, ∑ b ∈ Finset.range M,
          Y a b * Complex.exp ((2 * Real.pi * Complex.I)
            * (((u * a : ℕ) : ℂ) / (M : ℂ) + ((v * b : ℕ) : ℂ) / (M : ℂ)))) := by
    rw [Finset.mul_sum, ← Finset.sum_add_distrib]
    refine Finset.sum_congr rfl fun a _ => ?_
    rw [Finset.mul_sum, ← Finset.sum_add_distrib]
    refine Finset.sum_congr rfl fun b _ => ?_
    ring
  rw [hsum, add_div, mul_div_assoc]

lemma fwdField_linear (is_mask : Bool) (mask : ℕ → ℕ → ℂ) (p L : ℕ)
    (W H : ℕ → ℕ → ℂ) (c : ℂ) (u v : ℕ) :
    fwdField is_mask mask p L (fun a b => W a b + c * H a b) u v
      = fwdField is_mask mask p L W u v + c * fwdField is_mask mask p L H u v := by
  unfold fwdField
  have harr : (ifftshift2 (L + p * 2)
      (if is_mask then padC p L (fun a b => (W a b + c * H a b) * mask a b)
       else padC p L (fun a b => W a b + c * H a b)))
      = fun i j =>
        (ifftshift2 (L + p * 2)
          (if is_mask then padC p L (fun a b => W a b * mask a b) else padC p L W)) i j
        + c * (ifftshift2 (L + p * 2)
          (if is_mask then padC p L (fun a b => H a b * mask a b) else padC p L H)) i j := by
    funext i j
    cases is_mask with
    | false =>
        simp only [Bool.false_eq_true, if_false, ifftshift2]
        exact padC_linear p L W H c _ _
    | true =>
        simp only [if_true, ifftshift2]
        have : (fun a b => (W a b + c * H a b) * mask a b)
            = fun a b => W a b * mask a b + c * (H a b * mask a b) := by
          funext a b; ring
        rw [this]
        exact padC_linear p L (fun a b => W a b * mask a b)
          (fun a b => H a b * mask a b) c _ _
  rw [harr]
  exact ifft2_linear (L + p * 2) _ _ c u v

lemma normSq_hasDeriv (z w : ℂ) :
    HasDerivAt (fun t : ℝ => Complex.normSq (z + (t : ℂ) * w))
      (2 * ((starRingEnd ℂ) z * w).re) 0 := by
  have hfun : (fun t : ℝ => Complex.normSq (z + (t : ℂ) * w))
      = fun t : ℝ => (z.re + t * w.re) ^ 2 + (z.im + t * w.im) ^ 2 := by
    funext t
    simp only [Complex.normSq_apply, Complex.add_re, Complex.add_im,
      Complex.mul_re, Complex.mul_im, Complex.ofReal_re, Complex.ofReal_im]
    ring
  rw [hfun]
  have h1 : HasDerivAt (fun t : ℝ => z.re + t * w.re) w.re 0 := by
    simpa using ((hasDerivAt_id (0 : ℝ)).mul_const w.re).const_add z.re
  have h2 : HasDerivAt (fun t : ℝ => z.im + t * w.im) w.im 0 := by
    simpa using ((hasDerivAt_id (0 : ℝ)).mul_const w.im).const_add z.im
  have hd := (h1.pow 2).add (h2.pow 2)
  convert hd using 1
  simp only [Complex.mul_re, Complex.conj_re, Complex.conj_im, pow_one,
    Nat.cast_ofNat]
  ring

lemma abs_hasDeriv (z w : ℂ) (hz : z ≠ 0) :
    HasDerivAt (fun t : ℝ => Complex.abs (z + (t : ℂ) * w))
      (((starRingEnd ℂ) z * w).re / Complex.abs z) 0 := by
  have h0 : Complex.normSq (z + ((0 : ℝ) : ℂ) * w) ≠ 0 := by
    simp only [Complex.ofReal_zero, zero_mul, add_zero]
    exact mt Complex.normSq_eq_zero.mp hz
  have hsq := (normSq_hasDeriv z w).sqrt h0
  have hfun : (fun t : ℝ => Real.sqrt (Complex.normSq (z + (t : ℂ) * w)))
      = fun t : ℝ => Complex.abs (z + (t : ℂ) * w) := by
    funext t
    rw [Complex.abs_apply]
  rw [hfun] at hsq
  convert hsq using 1
  rw [show z + ((0 : ℝ) : ℂ) * w = z by simp, ← Complex.abs_apply]
  rw [mul_div_mul_left _ _ (two_ne_zero (α := ℝ))]

lemma pixel_hasDeriv (Mv : ℕ) (m : ℝ) (z w : ℂ) (hz : z ≠ 0) :
    HasDerivAt (fun t : ℝ => (m - Complex.abs (z + (t : ℂ) * w) * (Mv : ℝ)) ^ 2)
      (2 * ((starRingEnd ℂ) (gAmp Mv m z) * w).re) 0 := by
  have hstep := (((abs_hasDeriv z w hz).mul_const (Mv : ℝ)).const_sub m).pow 2
  convert hstep using 1
  rw [show z + ((0 : ℝ) : ℂ) * w = z by simp]
  have hs : Complex.abs z ≠ 0 := Complex.abs.ne_zero hz
  unfold gAmp
  rw [if_neg hz]
  simp only [map_mul, Complex.conj_conj, map_div₀, Complex.conj_ofReal,
    map_ofNat, pow_one, Nat.cast_ofNat]
  rw [show ((2 : ℂ) * ((Complex.abs z : ℝ) : ℂ)) = (((2 * Complex.abs z : ℝ)) : ℂ) by
    push_cast; ring]
  rw [div_eq_mul_inv, ← Complex.ofReal_inv]
  simp only [Complex.mul_re, Complex.ofReal_re, Complex.ofReal_im,
    Complex.mul_im, Complex.conj_re, Complex.conj_im]
  field_simp
  ring

lemma grad_chain_core (Mv p L : ℕ) (hpL : p + L ≤ Mv) (g X : ℕ → ℕ → ℂ) :
    (∑ u ∈ Finset.range Mv, ∑ v ∈ Finset.range Mv,
      (starRingEnd ℂ) (g u v) * ifft2 Mv (ifftshift2 Mv (padC p L X)) u v)
    = ∑ a ∈ Finset.range L, ∑ b ∈ Finset.range L,
      (starRingEnd ℂ) (ifftshift2Adj Mv (ifft2Adj Mv g) (a + p) (b + p)) * X a b := by
  rw [adj_ifft2 Mv g (ifftshift2 Mv (padC p L X))]
  rw [adj_shift Mv (ifft2Adj Mv g) (padC p L X)]
  rw [adj_pad Mv p L hpL (ifftshift2Adj Mv (ifft2Adj Mv g)) X]

lemma grad_chain_adjoint (is_mask : Bool) (mask : ℕ → ℕ → ℂ) (p L : ℕ)
    (meas : ℕ → ℕ → ℝ) (W H : ℕ → ℕ → ℂ) :
    (∑ u ∈ Finset.range (L + p * 2), ∑ v ∈ Finset.range (L + p * 2),
      (starRingEnd ℂ) (gAmp (L + p * 2) |meas u v|
          (fwdField is_mask mask p L W u v))
        * fwdField is_mask mask p L H u v)
    = ∑ a ∈ Finset.range L, ∑ b ∈ Finset.range L,
      (starRingEnd ℂ) (analyticGrad is_mask mask p L meas W a b) * H a b := by
  cases is_mask with
  | false =>
      simp only [fwdField, analyticGrad, cropC, Bool.false_eq_true, if_false]
      exact grad_chain_core (L + p * 2) p L (by omega)
        (fun u v => gAmp (L + p * 2) |meas u v|
          (ifft2 (L + p * 2) (ifftshift2 (L + p * 2) (padC p L W)) u v)) H
  | true =>
      simp only [fwdField, analyticGrad, cropC, if_true]
      exact (grad_chain_core (L + p * 2) p L (by omega)
        (fun u v => gAmp (L + p * 2) |meas u v|
          (ifft2 (L + p * 2) (ifftshift2 (L + p * 2)
            (padC p L (fun a b => W a b * mask a b))) u v))
        (fun a b => H a b * mask a b)).trans
        (adj_mask L mask (fun a b =>
          ifftshift2Adj (L + p * 2) (ifft2Adj (L + p * 2)
            (fun u v => gAmp (L + p * 2) |meas u v|
              (ifft2 (L + p * 2) (ifftshift2 (L + p * 2)
                (padC p L (fun a b => W a b * mask a b))) u v)))
            (a + p) (b + p)) H)

lemma window_loss_hasDeriv (is_mask : Bool) (mask : ℕ → ℕ → ℂ) (p L : ℕ)
    (meas : ℕ → ℕ → ℝ) (W H : ℕ → ℕ → ℂ)
    (hA : ∀ u v, u < L + p * 2 → v < L + p * 2 →
      fwdField is_mask mask p L W u v ≠ 0) :
    HasDerivAt (fun t : ℝ =>
      ∑ u ∈ Finset.range (L + p * 2), ∑ v ∈ Finset.range (L + p * 2),
        (|meas u v| - Complex.abs (fwdField is_mask mask p L
            (fun a b => W a b + (t : ℂ) * H a b) u v) * ((L + p * 2 : ℕ) : ℝ)) ^ 2)
      (2 * (∑ a ∈ Finset.range L, ∑ b ∈ Finset.range L,
        (starRingEnd ℂ) (analyticGrad is_mask mask p L meas W a b) * H a b).re)
      0 := by
  have hfun : (fun t : ℝ =>
      ∑ u ∈ Finset.range (L + p * 2), ∑ v ∈ Finset.range (L + p * 2),
        (|meas u v| - Complex.abs (fwdField is_mask mask p L
            (fun a b => W a b + (t : ℂ) * H a b) u v) * ((L + p * 2 : ℕ) : ℝ)) ^ 2)
      = fun t : ℝ =>
        ∑ u ∈ Finset.range (L + p * 2), ∑ v ∈ Finset.range (L + p * 2),
          (|meas u v| - Complex.abs (fwdField is_mask mask p L W u v
              + (t : ℂ) * fwdField is_mask mask p L H u v) * ((L + p * 2 : ℕ) : ℝ)) ^ 2 := by
    funext t
    refine Finset.sum_congr rfl fun u _ => Finset.sum_congr rfl fun v _ => ?_
    rw [fwdField_linear]
  rw [hfun]
  have hder : HasDerivAt (fun t : ℝ =>
      ∑ u ∈ Finset.range (L + p * 2), ∑ v ∈ Finset.range (L + p * 2),
        (|meas u v| - Complex.abs (fwdField is_mask mask p L W u v
            + (t : ℂ) * fwdField is_mask mask p L H u v) * ((L + p * 2 : ℕ) : ℝ)) ^ 2)
      (∑ u ∈ Finset.range (L + p * 2), ∑ v ∈ Finset.range (L + p * 2),
        2 * (((starRingEnd ℂ) (gAmp (L + p * 2) |meas u v|
            (fwdField is_mask mask p L W u v))
          * fwdField is_mask mask p L H u v).re)) 0 := by
    refine HasDerivAt.sum fun u hu => ?_
    refine HasDerivAt.sum fun v hv => ?_
    exact pixel_hasDeriv (L + p * 2) |meas u v| _ _
      (hA u v (Finset.mem_range.mp hu) (Finset.mem_range.mp hv))
  convert hder using 1
  rw [← grad_chain_adjoint is_mask mask p L meas W H]
  rw [Complex.re_sum, Finset.mul_sum]
  refine Finset.sum_congr rfl fun u _ => ?_
  rw [Complex.re_sum, Finset.mul_sum]

/-- C3: the per-window gradient of the refinement update is the analytically
derived Wirtinger gradient of the amplitude-squared batch loss: for every
window i of the batch, perturbing only that window's spectrum block in an
arbitrary complex direction H changes the loss with derivative
2 Re ⟨analyticGrad, H⟩, where analyticGrad is the hard-coded adjoint chain
(magnitude gradient z / (2 |z|) away from zero, inverse-transform adjoint,
shift adjoint, crop as the pad adjoint, conjugate-mask multiply) — the
defining property of the gradient with respect to the conjugated block. -/
theorem analyticGrad_is_wirtinger_gradient (is_mask : Bool) (mask : ℕ → ℕ → ℂ)
    (p L F : ℕ) (meas : ℕ → ℕ → ℕ → ℝ) (B : ℕ → ℕ → ℕ → ℂ) (i : ℕ)
    (H : ℕ → ℕ → ℂ) (hiF : i < F)
    (hA : ∀ u v, u < L + p * 2 → v < L + p * 2 →
      fwdField is_mask mask p L (B i) u v ≠ 0) :
    HasDerivAt (fun t : ℝ => tfLoss is_mask mask p L F meas
        (fun k a b => B k a b + if k = i then (t : ℂ) * H a b else 0))
      (2 * (∑ a ∈ Finset.range L, ∑ b ∈ Finset.range L,
        (starRingEnd ℂ) (analyticGrad is_mask mask p L (meas i) (B i) a b)
          * H a b).re) 0 := by
  have hM0 : ∀ (bt : ℕ → ℕ → ℕ → ℂ) (n u v : ℕ),
      |tfForward is_mask mask p L bt n u v|
        = Complex.abs (fwdField is_mask mask p L (bt n) u v)
            * ((L + p * 2 : ℕ) : ℝ) := by
    intro bt n u v
    have h0 : (0 : ℝ) ≤ tfForward is_mask mask p L bt n u v :=
      mul_nonneg (AbsoluteValue.nonneg _ _) (Nat.cast_nonneg _)
    rw [abs_of_nonneg h0]
    rfl
  have hfun : (fun t : ℝ => tfLoss is_mask mask p L F meas
      (fun k a b => B k a b + if k = i then (t : ℂ) * H a b else 0))
      = fun t : ℝ => ∑ n ∈ Finset.range F,
          if n = i then
            ∑ u ∈ Finset.range (L + p * 2), ∑ v ∈ Finset.range (L + p * 2),
              (|meas i u v| - Complex.abs (fwdField is_mask mask p L
                  (fun a b => B i a b + (t : ℂ) * H a b) u v)
                * ((L + p * 2 : ℕ) : ℝ)) ^ 2
          else
            ∑ u ∈ Finset.range (L + p * 2), ∑ v ∈ Finset.range (L + p * 2),
              (|meas n u v| - Complex.abs (fwdField is_mask mask p L (B n) u v)
                * ((L + p * 2 : ℕ) : ℝ)) ^ 2 := by
    funext t
    unfold tfLoss
    refine Finset.sum_congr rfl fun n _ => ?_
    by_cases hn : n = i
    · subst hn
      rw [if_pos rfl]
      refine Finset.sum_congr rfl fun u _ => Finset.sum_congr rfl fun v _ => ?_
      rw [hM0]
      rw [show (fun a b => B n a b + if n = n then (t : ℂ) * H a b else 0)
            = fun a b => B n a b + (t : ℂ) * H a b from by
        funext a b; rw [if_pos rfl]]
    · rw [if_neg hn]
      refine Finset.sum_congr rfl fun u _ => Finset.sum_congr rfl fun v _ => ?_
      rw [hM0]
      rw [show (fun a b => B n a b + if n = i then (t : ℂ) * H a b else 0)
            = B n from by
        funext a b; rw [if_neg hn, add_zero]]
  rw [hfun]
  have hder : HasDerivAt (fun t : ℝ => ∑ n ∈ Finset.range F,
      if n = i then
        ∑ u ∈ Finset.range (L + p * 2), ∑ v ∈ Finset.range (L + p * 2),
          (|meas i u v| - Complex.abs (fwdField is_mask mask p L
              (fun a b => B i a b + (t : ℂ) * H a b) u v)
            * ((L + p * 2 : ℕ) : ℝ)) ^ 2
      else
        ∑ u ∈ Finset.range (L + p * 2), ∑ v ∈ Finset.range (L + p * 2),
          (|meas n u v| - Complex.abs (fwdField is_mask mask p L (B n) u v)
            * ((L + p * 2 : ℕ) : ℝ)) ^ 2)
      (∑ n ∈ Finset.range F,
        if n = i then
          2 * (∑ a ∈ Finset.range L, ∑ b ∈ Finset.range L,
            (starRingEnd ℂ) (analyticGrad is_mask mask p L (meas i) (B i) a b)
              * H a b).re
        else 0) 0 := by
    refine HasDerivAt.sum fun n hn => ?_
    by_cases h : n = i
    · simp only [h, if_pos rfl]
      exact window_loss_hasDeriv is_mask mask p L (meas i) (B i) H hA
    · simp only [if_neg h]
      exact hasDerivAt_const 0 _
  convert hder using 1
  exact ((Finset.sum_ite_eq' (Finset.range F) i fun _ =>
      2 * (∑ a ∈ Finset.range L, ∑ b ∈ Finset.range L,
        (starRingEnd ℂ) (analyticGrad is_mask mask p L (meas i) (B i) a b)
          * H a b).re).trans
    (if_pos (Finset.mem_range.mpr hiF))).symm

/-- Closed instance of the C3 theorem at L = 1, pad 0, a one-window batch of
constant spectrum 1, zero measurements and direction 1, where the forward
field is the nonzero constant 1. -/
theorem analyticGrad_is_wirtinger_gradient_witness :
    ((0 : ℕ) < 1 ∧ (∀ u v : ℕ, u < 1 + 0 * 2 → v < 1 + 0 * 2 →
        fwdField false (fun _ _ => (1 : ℂ)) 0 1 (fun _ _ => (1 : ℂ)) u v ≠ 0)) ∧
      HasDerivAt (fun t : ℝ => tfLoss false (fun _ _ => (1 : ℂ)) 0 1 1
          (fun _ _ _ => (0 : ℝ))
          (fun k a b => (fun _ _ _ => (1 : ℂ)) k a b
            + if k = 0 then (t : ℂ) * (fun _ _ => (1 : ℂ)) a b else 0))
        (2 * (∑ a ∈ Finset.range 1, ∑ b ∈ Finset.range 1,
          (starRingEnd ℂ) (analyticGrad false (fun _ _ => (1 : ℂ)) 0 1
              ((fun _ _ _ => (0 : ℝ)) 0) ((fun _ _ _ => (1 : ℂ)) 0) a b)
            * (fun _ _ => (1 : ℂ)) a b).re) 0 := by
  have hval : fwdField false (fun _ _ => (1 : ℂ)) 0 1 (fun _ _ => (1 : ℂ)) 0 0 = 1 := by
    show ifft2 1 (ifftshift2 1 (padC 0 1 (fun _ _ => (1 : ℂ)))) 0 0 = 1
    unfold ifft2
    rw [Finset.sum_range_one, Finset.sum_range_one]
    norm_num [ifftshift2, padC, Complex.exp_zero]
  have hA : ∀ u v : ℕ, u < 1 + 0 * 2 → v < 1 + 0 * 2 →
      fwdField false (fun _ _ => (1 : ℂ)) 0 1 (fun _ _ => (1 : ℂ)) u v ≠ 0 := by
    intro u v hu hv
    have hu0 : u = 0 := by omega
    have hv0 : v = 0 := by omega
    subst hu0
    subst hv0
    rw [hval]
    exact one_ne_zero
  exact ⟨⟨by decide, hA⟩,
    analyticGrad_is_wirtinger_gradient false (fun _ _ => 1) 0 1 1
      (fun _ _ _ => 0) (fun _ _ _ => 1) 0 (fun _ _ => 1) (by decide) hA⟩
